import Mathlib

/-!
Verification of the dataset-reconciliation core of `cdc.py`.

The program loads a master CSV and one or more new CSVs into pandas
DataFrames restricted to a fixed nine-column schema (`self.columns`),
filters rows by a `FACILITY_TYPE` allow-list, coerces every cell to a
string and strips surrounding whitespace, and then classifies rows with
`df_diff`, which performs `df1.merge(df2, indicator=True, on=self.columns,
how="outer")` and selects rows by the `_merge` indicator
(`left_only` / `right_only` / `both`).

Because both DataFrames carry exactly the columns of `self.columns` and
the merge key is that whole column list, two rows match in the join iff
they are equal as full tuples of the nine string values.  The row-level
model below therefore represents a row as its list of column values and
the outer merge as whole-row matching; `pdMerge_spec` below relates this
to a schema-level model of `pandas.merge` that looks cells up by column
name, confirming the reduction.

The call `pandas.merge(..., how="outer", sort=False)` (pandas 1.x, which
this script requires: `drop("_merge", 1)` passes the axis positionally)
groups the result rows by join key in order of first appearance — keys
are factorized over the left frame first, then the right frame, and the
full outer join emits one group per key code in code order with no
order-restoring step.  A key occurring m times on the left and k > 0
times on the right contributes its m·k pairings tagged `both`; a key
only on the left contributes its m left rows tagged `left_only`; keys
only on the right follow, each contributing its k right rows tagged
`right_only`.  In particular a left frame with interleaved duplicate
rows is reordered (grouped), which the model below reproduces via
`keyOrder`.
-/

namespace Cdc

/-- Python `str.strip()` on the underlying character list: drop leading
whitespace, then drop trailing whitespace. -/
def stripChars (l : List Char) : List Char :=
  ((l.dropWhile Char.isWhitespace).reverse.dropWhile Char.isWhitespace).reverse

/-- Python `str.strip()` lifted to `String` (the lambda applied by
`applymap` in `get_files`). -/
def pyStrip (s : String) : String :=
  ⟨stripChars s.data⟩

/-- Definition `self.columns` from `Parsedata.__init__`: the fixed schema both
DataFrames are restricted to, and the merge key of `df_diff`. -/
def COLUMNS : List String :=
  ["CLIA", "FACILITY_TYPE", "CERTIFICATE_TYPE", "LAB_NAME", "STREET",
   "CITY", "STATE", "ZIP", "PHONE"]

/-- A row: the list of its string cell values, in `COLUMNS` order. -/
abbrev Row : Type := List String

/-- A table (DataFrame restricted to `COLUMNS`): an ordered list of rows. -/
abbrev Table : Type := List Row

/-- The pandas `_merge` indicator values. -/
inductive Merge : Type
  | left_only
  | right_only
  | both
deriving DecidableEq, Repr

/-- Distinct elements in order of first appearance, under an equivalence
test `eqv`; `seen` accumulates the representatives already emitted. -/
def distinctByAux {α : Type} (eqv : α → α → Bool) :
    List α → List α → List α
  | _, [] => []
  | seen, x :: t =>
    if seen.any fun s => eqv s x then distinctByAux eqv seen t
    else x :: distinctByAux eqv (x :: seen) t

/-- Distinct elements in order of first appearance under `eqv`: the key
group representatives of a pandas 1.x outer merge, in emission order. -/
def distinctBy {α : Type} (eqv : α → α → Bool) (l : List α) : List α :=
  distinctByAux eqv [] l

/-- The distinct row values of a table in first-appearance order — the
key groups of the merge, the key being the whole row. -/
def keyOrder (l : Table) : Table :=
  distinctBy (fun a b => a == b) l

/-- Embedding of `df1.merge(df2, indicator=True, on=self.columns, how="outer")`
with both frames carrying exactly the columns `self.columns` (pandas 1.x,
`sort=False`): result rows are grouped by key (here: whole row) in order
of first appearance, left-frame keys first.  A row value occurring `m`
times on the left and `k > 0` times on the right contributes `m * k`
pairings tagged `both`; occurring only on the left it contributes its
`m` copies tagged `left_only`; row values only on the right follow in
right-frame first-appearance order, each with its `k` copies tagged
`right_only`. -/
def outerMerge (df1 df2 : Table) : List (Row × Merge) :=
  ((keyOrder df1).flatMap fun r =>
    if df2.count r = 0 then List.replicate (df1.count r) (r, Merge.left_only)
    else List.replicate (df1.count r * df2.count r) (r, Merge.both)) ++
  ((keyOrder df2).flatMap fun s =>
    if df1.count s = 0 then List.replicate (df2.count s) (s, Merge.right_only)
    else [])

/-- Embedding of `Parsedata.df_diff`: outer-merge the two frames and keep the rows
whose `_merge` indicator matches `which` (`none` keeps the rows not
present in both). -/
def df_diff (df1 df2 : Table) (which : Option Merge) : List (Row × Merge) :=
  let comparison_df := outerMerge df1 df2
  match which with
  | none => comparison_df.filter fun p => p.2 ≠ Merge.both
  | some w => comparison_df.filter fun p => p.2 = w

/-- Bucket `new_clias_df` in `process_data`: `df_diff(master, new, which="right_only")`
with the `_merge` column dropped. -/
def new_clias_df (mas new : Table) : Table :=
  (df_diff mas new (some Merge.right_only)).map Prod.fst

/-- Bucket `closed_clias_df` in `process_data`: `df_diff(master, new, which="left_only")`
with the `_merge` column dropped. -/
def closed_clias_df (mas new : Table) : Table :=
  (df_diff mas new (some Merge.left_only)).map Prod.fst

/-- Bucket `unchanged_clias_df` in `process_data`: `df_diff(master, new, which="both")`
with the `_merge` column dropped. -/
def unchanged_clias_df (mas new : Table) : Table :=
  (df_diff mas new (some Merge.both)).map Prod.fst

/-- Table `new_master_df` in `process_data`:
`pd.concat([unchanged_clias_df, new_clias_df], ignore_index=True)`. -/
def new_master_df (mas new : Table) : Table :=
  unchanged_clias_df mas new ++ new_clias_df mas new

/-- Filtering a `replicate` by a predicate that rejects its element gives `[]`. -/
theorem filter_replicate_of_neg {α : Type} (p : α → Bool) (a : α) (h : p a = false)
    (n : Nat) : (List.replicate n a).filter p = [] := by
  induction n with
  | zero => rfl
  | succ n ih => simp [List.replicate_succ, List.filter_cons, h, ih]

/-- Filtering a `replicate` by a predicate that accepts its element keeps it. -/
theorem filter_replicate_of_pos {α : Type} (p : α → Bool) (a : α) (h : p a = true)
    (n : Nat) : (List.replicate n a).filter p = List.replicate n a := by
  induction n with
  | zero => rfl
  | succ n ih => simp [List.replicate_succ, List.filter_cons, h, ih]

/-- Membership in first-appearance dedup: the element occurs in the list
and is not among the already-emitted representatives. -/
theorem mem_distinctByAux {α : Type} [BEq α] [LawfulBEq α]
    (seen l : List α) (x : α) :
    x ∈ distinctByAux (fun a b => a == b) seen l ↔ x ∈ l ∧ x ∉ seen := by
  induction l generalizing seen with
  | nil => simp [distinctByAux]
  | cons y t ih =>
    by_cases hy : y ∈ seen
    · have hany : (seen.any fun s => s == y) = true :=
        List.any_eq_true.mpr ⟨y, hy, by simp⟩
      rw [distinctByAux, if_pos hany, ih]
      constructor
      · rintro ⟨h1, h2⟩
        exact ⟨List.mem_cons_of_mem y h1, h2⟩
      · rintro ⟨h1, h2⟩
        rcases List.mem_cons.mp h1 with rfl | h1
        · exact absurd hy h2
        · exact ⟨h1, h2⟩
    · have hany : (seen.any fun s => s == y) = false := by
        rcases ha : seen.any fun s => s == y with _ | _
        · rfl
        · obtain ⟨s, hs, hsy⟩ := List.any_eq_true.mp ha
          exact absurd ((beq_iff_eq.mp hsy) ▸ hs) hy
      rw [distinctByAux, if_neg (by simp [hany])]
      rw [List.mem_cons, ih]
      constructor
      · rintro (rfl | ⟨h1, h2⟩)
        · exact ⟨List.mem_cons_self _ _, hy⟩
        · rw [List.mem_cons] at h2
          push_neg at h2
          exact ⟨List.mem_cons_of_mem y h1, h2.2⟩
      · rintro ⟨h1, h2⟩
        rcases List.mem_cons.mp h1 with rfl | h1
        · exact Or.inl rfl
        · by_cases hxy : x = y
          · exact Or.inl hxy
          · exact Or.inr ⟨h1, by simp [List.mem_cons, hxy, h2]⟩

/-- Membership in `keyOrder`: exactly the row values of the table. -/
theorem mem_keyOrder {l : Table} {x : Row} : x ∈ keyOrder l ↔ x ∈ l := by
  rw [keyOrder, distinctBy, mem_distinctByAux]
  simp

/-- First-appearance dedup emits no duplicates. -/
theorem nodup_distinctByAux {α : Type} [BEq α] [LawfulBEq α]
    (seen l : List α) :
    (distinctByAux (fun a b => a == b) seen l).Nodup := by
  induction l generalizing seen with
  | nil => exact List.nodup_nil
  | cons y t ih =>
    rw [distinctByAux]
    by_cases hc : (seen.any fun s => s == y) = true
    · rw [if_pos hc]
      exact ih seen
    · rw [if_neg hc]
      refine List.nodup_cons.mpr ⟨fun hmem => ?_, ih (y :: seen)⟩
      exact ((mem_distinctByAux (y :: seen) t y).mp hmem).2
        (List.mem_cons_self y seen)

/-- The `keyOrder` of a table is duplicate-free. -/
theorem nodup_keyOrder (l : Table) : (keyOrder l).Nodup :=
  nodup_distinctByAux [] l

/-- On a duplicate-free list disjoint from `seen`, first-appearance
dedup is the identity. -/
theorem distinctByAux_of_nodup {α : Type} [BEq α] [LawfulBEq α]
    (seen l : List α) (h : l.Nodup) (hd : ∀ s ∈ seen, s ∉ l) :
    distinctByAux (fun a b => a == b) seen l = l := by
  induction l generalizing seen with
  | nil => rfl
  | cons y t ih =>
    obtain ⟨hyt, ht⟩ := List.nodup_cons.mp h
    have hany : (seen.any fun s => s == y) = false := by
      rcases ha : seen.any fun s => s == y with _ | _
      · rfl
      · obtain ⟨s, hs, hsy⟩ := List.any_eq_true.mp ha
        exact absurd (List.mem_cons_self y t)
          ((beq_iff_eq.mp hsy) ▸ hd s hs)
    rw [distinctByAux, if_neg (by simp [hany])]
    congr 1
    refine ih (y :: seen) ht fun s hs hst => ?_
    rcases List.mem_cons.mp hs with rfl | hs
    · exact hyt hst
    · exact hd s hs (List.mem_cons_of_mem y hst)

/-- On a duplicate-free table, `keyOrder` is the identity. -/
theorem keyOrder_of_nodup (l : Table) (h : l.Nodup) : keyOrder l = l :=
  distinctByAux_of_nodup [] l h (fun s hs => absurd hs (List.not_mem_nil s))

/-- Filtering distributes over `flatMap`. -/
theorem filter_flatMap {α β : Type} (l : List α) (f : α → List β)
    (p : β → Bool) :
    (l.flatMap f).filter p = l.flatMap fun x => (f x).filter p := by
  induction l with
  | nil => rfl
  | cons x t ih => simp [List.flatMap_cons, List.filter_append, ih]

/-- A `flatMap` of empty lists is empty. -/
theorem flatMap_const_nil {α β : Type} (l : List α) :
    (l.flatMap fun _ => ([] : List β)) = [] := by
  induction l with
  | nil => rfl
  | cons x t ih => simp [List.flatMap_cons, ih]

/-- Mapping `flatMap` only looks at its function on members of the list. -/
theorem flatMap_congr_mem {α β : Type} (l : List α) (f g : α → List β)
    (h : ∀ a ∈ l, f a = g a) : l.flatMap f = l.flatMap g := by
  induction l with
  | nil => rfl
  | cons x t ih =>
    rw [List.flatMap_cons, List.flatMap_cons, h x (List.mem_cons_self x t),
      ih fun a ha => h a (List.mem_cons_of_mem x ha)]

/-- A guarded `flatMap` is the `flatMap` of the filtered list. -/
theorem flatMap_ite_eq_filter {β : Type} (l : Table) (q : Row → Prop)
    [DecidablePred q] (f : Row → List β) :
    (l.flatMap fun x => if q x then f x else []) =
      (l.filter fun x => decide (q x)).flatMap f := by
  induction l with
  | nil => rfl
  | cons x t ih =>
    rw [List.flatMap_cons, List.filter_cons]
    by_cases h : q x
    · simp only [if_pos h, decide_eq_true h, if_true, List.flatMap_cons, ih]
    · simp only [if_neg h, decide_eq_false h, Bool.false_eq_true, if_false,
        List.nil_append, ih]

/-- Occurrence count in a `flatMap` of per-value replicates over a
duplicate-free base list. -/
theorem count_flatMap_replicate (l : Table) (f : Row → Nat) (hl : l.Nodup)
    (x : Row) :
    (l.flatMap fun r => List.replicate (f r) r).count x =
      if x ∈ l then f x else 0 := by
  induction l with
  | nil => simp
  | cons r t ih =>
    obtain ⟨hrt, ht⟩ := List.nodup_cons.mp hl
    rw [List.flatMap_cons, List.count_append, ih ht, List.count_replicate]
    by_cases hxr : x = r
    · subst hxr
      simp [hrt]
    · rw [if_neg (by simp [Ne.symm hxr])]
      simp [hxr, List.mem_cons]

/-- The added bucket: right-frame key groups absent from the master,
each group expanded to its multiplicity in the new table. -/
theorem new_clias_eq (mas new : Table) :
    new_clias_df mas new = (keyOrder new).flatMap fun s =>
      if mas.count s = 0 then List.replicate (new.count s) s else [] := by
  unfold new_clias_df df_diff
  simp only [outerMerge]
  rw [show (fun p : Row × Merge => decide (p.2 = Merge.right_only)) =
        (fun p : Row × Merge => p.2 == Merge.right_only) from rfl]
  rw [List.filter_append, filter_flatMap, filter_flatMap, List.map_append,
    List.map_flatMap, List.map_flatMap]
  have hL : (fun r => (((if new.count r = 0 then
        List.replicate (mas.count r) (r, Merge.left_only)
      else List.replicate (mas.count r * new.count r) (r, Merge.both)).filter
        fun p => p.2 == Merge.right_only).map Prod.fst)) =
      fun _ => ([] : Table) := by
    funext r
    by_cases h : new.count r = 0
    · rw [if_pos h, filter_replicate_of_neg _ _ rfl _]; rfl
    · rw [if_neg h, filter_replicate_of_neg _ _ rfl _]; rfl
  have hR : (fun s => (((if mas.count s = 0 then
        List.replicate (new.count s) (s, Merge.right_only)
      else []).filter fun p => p.2 == Merge.right_only).map Prod.fst)) =
      fun s => if mas.count s = 0 then List.replicate (new.count s) s
        else ([] : Table) := by
    funext s
    by_cases h : mas.count s = 0
    · rw [if_pos h, if_pos h, filter_replicate_of_pos _ _ rfl _,
        List.map_replicate]
    · rw [if_neg h, if_neg h]; rfl
  rw [hL, hR, flatMap_const_nil, List.nil_append]

/-- The removed bucket: left-frame key groups absent from the new table,
each group expanded to its multiplicity in the master. -/
theorem closed_clias_eq (mas new : Table) :
    closed_clias_df mas new = (keyOrder mas).flatMap fun r =>
      if new.count r = 0 then List.replicate (mas.count r) r else [] := by
  unfold closed_clias_df df_diff
  simp only [outerMerge]
  rw [show (fun p : Row × Merge => decide (p.2 = Merge.left_only)) =
        (fun p : Row × Merge => p.2 == Merge.left_only) from rfl]
  rw [List.filter_append, filter_flatMap, filter_flatMap, List.map_append,
    List.map_flatMap, List.map_flatMap]
  have hL : (fun r => (((if new.count r = 0 then
        List.replicate (mas.count r) (r, Merge.left_only)
      else List.replicate (mas.count r * new.count r) (r, Merge.both)).filter
        fun p => p.2 == Merge.left_only).map Prod.fst)) =
      fun r => if new.count r = 0 then List.replicate (mas.count r) r
        else ([] : Table) := by
    funext r
    by_cases h : new.count r = 0
    · rw [if_pos h, if_pos h, filter_replicate_of_pos _ _ rfl _,
        List.map_replicate]
    · rw [if_neg h, if_neg h, filter_replicate_of_neg _ _ rfl _]; rfl
  have hR : (fun s => (((if mas.count s = 0 then
        List.replicate (new.count s) (s, Merge.right_only)
      else []).filter fun p => p.2 == Merge.left_only).map Prod.fst)) =
      fun _ => ([] : Table) := by
    funext s
    by_cases h : mas.count s = 0
    · rw [if_pos h, filter_replicate_of_neg _ _ rfl _]; rfl
    · rw [if_neg h]; rfl
  rw [hL, hR, flatMap_const_nil, List.append_nil]

/-- The unchanged bucket: left-frame key groups present in the new
table, each expanded to the product of its two multiplicities. -/
theorem unchanged_clias_eq (mas new : Table) :
    unchanged_clias_df mas new = (keyOrder mas).flatMap fun r =>
      if new.count r = 0 then []
      else List.replicate (mas.count r * new.count r) r := by
  unfold unchanged_clias_df df_diff
  simp only [outerMerge]
  rw [show (fun p : Row × Merge => decide (p.2 = Merge.both)) =
        (fun p : Row × Merge => p.2 == Merge.both) from rfl]
  rw [List.filter_append, filter_flatMap, filter_flatMap, List.map_append,
    List.map_flatMap, List.map_flatMap]
  have hL : (fun r => (((if new.count r = 0 then
        List.replicate (mas.count r) (r, Merge.left_only)
      else List.replicate (mas.count r * new.count r) (r, Merge.both)).filter
        fun p => p.2 == Merge.both).map Prod.fst)) =
      fun r => if new.count r = 0 then ([] : Table)
        else List.replicate (mas.count r * new.count r) r := by
    funext r
    by_cases h : new.count r = 0
    · rw [if_pos h, if_pos h, filter_replicate_of_neg _ _ rfl _]; rfl
    · rw [if_neg h, if_neg h, filter_replicate_of_pos _ _ rfl _,
        List.map_replicate]
  have hR : (fun s => (((if mas.count s = 0 then
        List.replicate (new.count s) (s, Merge.right_only)
      else []).filter fun p => p.2 == Merge.both).map Prod.fst)) =
      fun _ => ([] : Table) := by
    funext s
    by_cases h : mas.count s = 0
    · rw [if_pos h, filter_replicate_of_neg _ _ rfl _]; rfl
    · rw [if_neg h]; rfl
  rw [hL, hR, flatMap_const_nil, List.append_nil]

/-- Membership in the added bucket: in the new table, absent from master. -/
theorem mem_new_clias {mas new : Table} {r : Row} :
    r ∈ new_clias_df mas new ↔ r ∈ new ∧ r ∉ mas := by
  rw [new_clias_eq]
  constructor
  · intro h
    obtain ⟨x, hx, hr⟩ := List.mem_flatMap.mp h
    by_cases hq : mas.count x = 0
    · rw [if_pos hq] at hr
      obtain ⟨-, rfl⟩ := List.mem_replicate.mp hr
      exact ⟨mem_keyOrder.mp hx, List.count_eq_zero.mp hq⟩
    · rw [if_neg hq] at hr
      exact absurd hr (List.not_mem_nil r)
  · rintro ⟨h1, h2⟩
    refine List.mem_flatMap.mpr ⟨r, mem_keyOrder.mpr h1, ?_⟩
    rw [if_pos (List.count_eq_zero.mpr h2)]
    exact List.mem_replicate.mpr ⟨fun hc => (List.count_eq_zero.mp hc) h1, rfl⟩

/-- Membership in the removed bucket: in the master, absent from new. -/
theorem mem_closed_clias {mas new : Table} {r : Row} :
    r ∈ closed_clias_df mas new ↔ r ∈ mas ∧ r ∉ new := by
  rw [closed_clias_eq]
  constructor
  · intro h
    obtain ⟨x, hx, hr⟩ := List.mem_flatMap.mp h
    by_cases hq : new.count x = 0
    · rw [if_pos hq] at hr
      obtain ⟨-, rfl⟩ := List.mem_replicate.mp hr
      exact ⟨mem_keyOrder.mp hx, List.count_eq_zero.mp hq⟩
    · rw [if_neg hq] at hr
      exact absurd hr (List.not_mem_nil r)
  · rintro ⟨h1, h2⟩
    refine List.mem_flatMap.mpr ⟨r, mem_keyOrder.mpr h1, ?_⟩
    rw [if_pos (List.count_eq_zero.mpr h2)]
    exact List.mem_replicate.mpr ⟨fun hc => (List.count_eq_zero.mp hc) h1, rfl⟩

/-- Membership in the unchanged bucket: in both tables. -/
theorem mem_unchanged_clias {mas new : Table} {r : Row} :
    r ∈ unchanged_clias_df mas new ↔ r ∈ mas ∧ r ∈ new := by
  rw [unchanged_clias_eq]
  constructor
  · intro h
    obtain ⟨x, hx, hr⟩ := List.mem_flatMap.mp h
    by_cases hq : new.count x = 0
    · rw [if_pos hq] at hr
      exact absurd hr (List.not_mem_nil r)
    · rw [if_neg hq] at hr
      obtain ⟨-, rfl⟩ := List.mem_replicate.mp hr
      exact ⟨mem_keyOrder.mp hx, by
        by_contra hn
        exact hq (List.count_eq_zero.mpr hn)⟩
  · rintro ⟨h1, h2⟩
    refine List.mem_flatMap.mpr ⟨r, mem_keyOrder.mpr h1, ?_⟩
    rw [if_neg fun hc => (List.count_eq_zero.mp hc) h2]
    refine List.mem_replicate.mpr ⟨?_, rfl⟩
    exact Nat.mul_ne_zero (fun hc => (List.count_eq_zero.mp hc) h1)
      (fun hc => (List.count_eq_zero.mp hc) h2)

/-- Membership in the new master: in the unchanged or the added bucket. -/
theorem mem_new_master {mas new : Table} {r : Row} :
    r ∈ new_master_df mas new ↔
      r ∈ unchanged_clias_df mas new ∨ r ∈ new_clias_df mas new := by
  rw [new_master_df]
  exact List.mem_append

/-- Sample rows carrying the full nine-column schema. -/
def row1 : Row :=
  ["1", "Hospital", "Compliance", "LabA", "1 Main", "Anchorage", "AK",
   "99501", "555"]

/-- Second sample row. -/
def row2 : Row :=
  ["2", "Independent", "Accreditation", "LabB", "2 Main", "Mobile", "AL",
   "36601", "556"]

/-- Third sample row. -/
def row3 : Row :=
  ["3", "Physician Office", "Waiver", "LabC", "3 Main", "Austin", "TX",
   "73301", "557"]

/-- Fourth sample row, CLIA "4". -/
def row4a : Row :=
  ["4", "Hospital", "Compliance", "LabD", "4 Main", "Juneau", "AK",
   "99801", "558"]

/-- Fifth sample row, also CLIA "4" but differing in every other column. -/
def row4b : Row :=
  ["4", "Independent", "Waiver", "LabE", "5 Main", "Fairbanks", "AK",
   "99701", "559"]

/-- C1: the three classification buckets of `df_diff` are pairwise
disjoint and together cover exactly the rows of the two input tables:
a row value is added, removed or unchanged iff it occurs in master or
new, and no row value falls into two buckets (the merge key is the whole
column list, so the key-projection of a row is the row itself). -/
theorem partition_property (A B : Table) (r : Row) :
    ((r ∈ new_clias_df A B ∨ r ∈ closed_clias_df A B ∨
        r ∈ unchanged_clias_df A B) ↔ (r ∈ A ∨ r ∈ B)) ∧
    ¬(r ∈ new_clias_df A B ∧ r ∈ closed_clias_df A B) ∧
    ¬(r ∈ new_clias_df A B ∧ r ∈ unchanged_clias_df A B) ∧
    ¬(r ∈ closed_clias_df A B ∧ r ∈ unchanged_clias_df A B) := by
  simp only [mem_new_clias, mem_closed_clias, mem_unchanged_clias]
  constructor
  · constructor
    · rintro (⟨h, -⟩ | ⟨h, -⟩ | ⟨h, -⟩) <;> [exact Or.inr h; exact Or.inl h;
        exact Or.inl h]
    · intro h
      by_cases hA : r ∈ A <;> by_cases hB : r ∈ B <;> tauto
  · tauto

/-- C1 witness: the partition property applied to a concrete table pair. -/
theorem partition_property_witness :
    ¬(row2 ∈ new_clias_df [row1, row2] [row2, row3] ∧
      row2 ∈ closed_clias_df [row1, row2] [row2, row3]) :=
  (partition_property [row1, row2] [row2, row3] row2).2.1

/-- C2 counterexample: the new master is not ordered added-then-unchanged.
With master `[row1, row2]` and incoming `[row2, row3]`, the new master is
`[row2, row3]` (unchanged first), not `[row3, row2]`. -/
theorem new_master_order_counterexample :
    new_master_df [row1, row2] [row2, row3] ≠
      new_clias_df [row1, row2] [row2, row3] ++
        unchanged_clias_df [row1, row2] [row2, row3] := by
  decide

/-- C2 amended: the new master is `pd.concat([unchanged, added])` — it
contains exactly the unchanged rows followed by the added rows (unchanged
first, then added), densely re-indexed, and no removed row appears in it. -/
theorem new_master_composition (A B : Table) :
    new_master_df A B = unchanged_clias_df A B ++ new_clias_df A B ∧
    ∀ r ∈ closed_clias_df A B, r ∉ new_master_df A B := by
  refine ⟨rfl, fun r hr hm => ?_⟩
  obtain ⟨-, hrB⟩ := mem_closed_clias.mp hr
  rcases mem_new_master.mp hm with h | h
  · exact hrB (mem_unchanged_clias.mp h).2
  · exact hrB (mem_new_clias.mp h).1

/-- C2 witness: a removed row is absent from a concrete new master. -/
theorem new_master_composition_witness :
    row1 ∉ new_master_df [row1, row2] [row2, row3] :=
  (new_master_composition [row1, row2] [row2, row3]).2 row1 (by decide)

/-- C3: the new master equals `unchanged + added` as a row multiset, and
re-running the reconciliation with the new master as the master side
against the same incoming table yields an empty added bucket. -/
theorem new_master_closure (A B : Table) :
    (new_master_df A B : Multiset Row) =
      (unchanged_clias_df A B : Multiset Row) +
        (new_clias_df A B : Multiset Row) ∧
    new_clias_df (new_master_df A B) B = [] := by
  constructor
  · simp [new_master_df]
  · rw [new_clias_eq]
    have hcongr : ((keyOrder B).flatMap fun s =>
        if (new_master_df A B).count s = 0 then List.replicate (B.count s) s
        else []) = (keyOrder B).flatMap fun _ => ([] : Table) := by
      refine flatMap_congr_mem _ _ _ fun s hs => ?_
      have hsB : s ∈ B := mem_keyOrder.mp hs
      have hmem : s ∈ new_master_df A B := by
        by_cases hA : s ∈ A
        · exact mem_new_master.mpr (Or.inl (mem_unchanged_clias.mpr ⟨hA, hsB⟩))
        · exact mem_new_master.mpr (Or.inr (mem_new_clias.mpr ⟨hsB, hA⟩))
      exact if_neg fun hc => (List.count_eq_zero.mp hc) hmem
    rw [hcongr, flatMap_const_nil]

/-- In a duplicate-free list every member has occurrence count one. -/
theorem count_eq_one_of_nodup_mem {α : Type} [BEq α] [LawfulBEq α]
    {l : List α} {a : α} (h : l.Nodup) (ha : a ∈ l) : l.count a = 1 := by
  induction l with
  | nil => cases ha
  | cons x t ih =>
    obtain ⟨hxt, ht⟩ := List.nodup_cons.mp h
    rcases List.mem_cons.mp ha with rfl | ha2
    · rw [List.count_cons_self, List.count_eq_zero.mpr hxt]
    · have hax : a ≠ x := fun hh => hxt (hh ▸ ha2)
      rw [List.count_cons_of_ne hax, ih ht ha2]

/-- Folding the own multiplicity of each row back over a duplicate-free list
reproduces the list. -/
theorem flatMap_replicate_count_self (A : Table) (h : A.Nodup) :
    (A.flatMap fun r => List.replicate (A.count r) r) = A := by
  induction A with
  | nil => rfl
  | cons x t ih =>
    obtain ⟨hxt, ht⟩ := List.nodup_cons.mp h
    rw [List.flatMap_cons, List.count_cons_self, List.count_eq_zero.mpr hxt]
    have hcongr : (t.flatMap fun r => List.replicate ((x :: t).count r) r) =
        t.flatMap fun r => List.replicate (t.count r) r :=
      flatMap_congr_mem t _ _ fun a ha => by
        have hax : a ≠ x := fun hh => hxt (hh ▸ ha)
        rw [List.count_cons_of_ne hax]
    rw [hcongr, ih ht]
    rfl

/-- C4: reconciling a duplicate-free table against itself yields empty
added and removed buckets and an unchanged bucket equal to the table,
row for row. -/
theorem reconcile_self (A : Table) (h : A.Nodup) :
    new_clias_df A A = [] ∧ closed_clias_df A A = [] ∧
      unchanged_clias_df A A = A := by
  refine ⟨?_, ?_, ?_⟩
  · rw [new_clias_eq]
    have hz : ((keyOrder A).flatMap fun s =>
        if A.count s = 0 then List.replicate (A.count s) s else []) =
        (keyOrder A).flatMap fun _ => ([] : Table) :=
      flatMap_congr_mem _ _ _ fun s hs =>
        if_neg fun hc => (List.count_eq_zero.mp hc) (mem_keyOrder.mp hs)
    rw [hz, flatMap_const_nil]
  · rw [closed_clias_eq]
    have hz : ((keyOrder A).flatMap fun r =>
        if A.count r = 0 then List.replicate (A.count r) r else []) =
        (keyOrder A).flatMap fun _ => ([] : Table) :=
      flatMap_congr_mem _ _ _ fun r hr =>
        if_neg fun hc => (List.count_eq_zero.mp hc) (mem_keyOrder.mp hr)
    rw [hz, flatMap_const_nil]
  · rw [unchanged_clias_eq, keyOrder_of_nodup A h]
    have hone : (A.flatMap fun r => if A.count r = 0 then []
        else List.replicate (A.count r * A.count r) r) =
        A.flatMap fun r => List.replicate (A.count r) r :=
      flatMap_congr_mem _ _ _ fun r hr => by
        have hc : A.count r = 1 := count_eq_one_of_nodup_mem h hr
        rw [if_neg (by omega), hc]
    rw [hone, flatMap_replicate_count_self A h]

/-- C4 witness: self-reconciliation of a concrete duplicate-free table. -/
theorem reconcile_self_witness :
    new_clias_df [row1, row2] [row1, row2] = [] ∧
    closed_clias_df [row1, row2] [row1, row2] = [] ∧
    unchanged_clias_df [row1, row2] [row1, row2] = [row1, row2] :=
  reconcile_self [row1, row2] (by decide)

/-- C8 counterexample: against an empty incoming table, a master with
interleaved duplicate rows is reordered by the key-grouped outer merge —
the removed bucket groups the two copies of the first row together, so
it is not equal to the master row for row. -/
theorem empty_incoming_order_counterexample :
    closed_clias_df [row1, row2, row1] [] = [row1, row1, row2] ∧
    closed_clias_df [row1, row2, row1] [] ≠ [row1, row2, row1] := by
  decide

/-- C8 amended: reconciling any master against an empty incoming table
yields empty added and unchanged buckets, a removed bucket containing
exactly the rows of the master — every row value occurs with the same
multiplicity as in the master, emitted grouped by key in
first-appearance order — and an empty new master; each bucket is an
ordinary (possibly empty) table, not an error.  For a duplicate-free
master the removed bucket equals the master row for row. -/
theorem empty_incoming (A : Table) :
    new_clias_df A [] = [] ∧ unchanged_clias_df A [] = [] ∧
      (∀ x : Row, (closed_clias_df A []).count x = A.count x) ∧
      new_master_df A [] = [] ∧
      (A.Nodup → closed_clias_df A [] = A) := by
  have h0 : closed_clias_df A [] =
      (keyOrder A).flatMap fun r => List.replicate (A.count r) r := by
    rw [closed_clias_eq]
    exact flatMap_congr_mem _ _ _ fun r _ => if_pos rfl
  have h1 : new_clias_df A [] = [] := by
    rw [new_clias_eq]
    rfl
  have h2 : unchanged_clias_df A [] = [] := by
    rw [unchanged_clias_eq]
    have hz : ((keyOrder A).flatMap fun r =>
        if ([] : Table).count r = 0 then []
        else List.replicate (A.count r * ([] : Table).count r) r) =
        (keyOrder A).flatMap fun _ => ([] : Table) :=
      flatMap_congr_mem _ _ _ fun r _ => if_pos rfl
    rw [hz, flatMap_const_nil]
  refine ⟨h1, h2, ?_, ?_, ?_⟩
  · intro x
    rw [h0, count_flatMap_replicate _ _ (nodup_keyOrder A) x]
    by_cases hx : x ∈ A
    · rw [if_pos (mem_keyOrder.mpr hx)]
    · rw [if_neg fun hc => hx (mem_keyOrder.mp hc)]
      exact (List.count_eq_zero.mpr hx).symm
  · rw [new_master_df, h1, h2]
    rfl
  · intro hnd
    rw [h0, keyOrder_of_nodup A hnd, flatMap_replicate_count_self A hnd]

/-- C8 witness: the amended statement applied to a concrete
duplicate-free master, discharging the duplicate-free hypothesis of the
row-for-row conjunct. -/
theorem empty_incoming_witness :
    closed_clias_df [row1, row2] [] = [row1, row2] :=
  (empty_incoming [row1, row2]).2.2.2.2 (by decide)

/-- C9: if a CLIA value occurs nowhere in the master, every incoming row
carrying that CLIA (also when several such rows share it but differ in
other columns) is classified as added, and the new master contains it
with exactly its multiplicity in the incoming table — duplicates are not
collapsed. -/
theorem duplicate_new_key (A B : Table) (k : String)
    (hA : ∀ a ∈ A, a.get? 0 ≠ some k) :
    ∀ r ∈ B, r.get? 0 = some k →
      r ∈ new_clias_df A B ∧ (new_master_df A B).count r = B.count r := by
  intro r hrB hrk
  have hrA : r ∉ A := fun hmem => hA r hmem hrk
  refine ⟨mem_new_clias.mpr ⟨hrB, hrA⟩, ?_⟩
  rw [new_master_df, List.count_append]
  have h1 : (unchanged_clias_df A B).count r = 0 :=
    List.count_eq_zero.mpr fun hmem => hrA (mem_unchanged_clias.mp hmem).1
  have h2 : (new_clias_df A B).count r = B.count r := by
    rw [new_clias_eq, flatMap_ite_eq_filter,
      count_flatMap_replicate _ _ ((nodup_keyOrder B).filter _) r,
      if_pos (List.mem_filter.mpr ⟨mem_keyOrder.mpr hrB,
        by simp [List.count_eq_zero, hrA]⟩)]
  rw [h1, h2, Nat.zero_add]

/-- C9 witness: CLIA "4" occurs twice in the incoming table with
different non-CLIA values and nowhere in the master; both rows are added
and kept with their multiplicity. -/
theorem duplicate_new_key_witness :
    row4a ∈ new_clias_df [row1] [row4a, row4b] ∧
      (new_master_df [row1] [row4a, row4b]).count row4a =
        ([row4a, row4b] : Table).count row4a :=
  duplicate_new_key [row1] [row4a, row4b] "4" (by decide) row4a (by decide)
    (by decide)

/-- A raw CSV cell as parsed by `pd.read_csv(..., dtype=str)`: `none` is
NaN — produced both by a missing field and by an empty field — and
`some s` is a string value. -/
abbrev Cell : Type := Option String

/-- A raw CSV record: the parsed fields of one line. -/
abbrev RawRow : Type := List Cell

/-- NaN-fill a parsed line up to the nine-column schema, as pandas does
for lines with fewer fields than columns. -/
def pad_row (r : RawRow) : RawRow :=
  r ++ List.replicate (9 - r.length) none

/-- Embedding of `pd.read_csv(file, names=self.columns, header=None, dtype=str,
usecols=self.columns)`: a line with more fields than the nine named
columns aborts parsing (pandas `ParserError`); shorter lines are
NaN-filled. -/
def read_csv (raws : List RawRow) : Except String (List RawRow) :=
  if raws.all fun r => r.length ≤ 9 then
    Except.ok (raws.map pad_row)
  else Except.error "ParserError"

/-- List `facility_type_keep_list` in `get_files`. -/
def facility_type_keep_list : List String :=
  ["Independent", "Hospital", "Physician Office"]

/-- The row predicate of the `isin` filter in `get_files`, evaluated on
the NaN-carrying frame before any string coercion: the `FACILITY_TYPE`
cell (column index 1) must be a present string in the keep list; NaN
never passes `isin`. -/
def facility_admissible (r : RawRow) : Bool :=
  match r.get? 1 with
  | some (some v) => facility_type_keep_list.contains v
  | _ => false

/-- The `isin` row filter of `get_files`. -/
def facility_filter (t : List RawRow) : List RawRow :=
  t.filter facility_admissible

/-- Coercion `.astype(str)` on a `dtype=str` frame: present strings are kept and
NaN cells become the literal string "nan". -/
def astype_str (r : RawRow) : Row :=
  r.map fun c =>
    match c with
    | some s => s
    | none => "nan"

/-- Embedding of `.applymap(lambda x: x.strip() if isinstance(x, str) else x)` on a
row of strings. -/
def strip_row (r : Row) : Row :=
  r.map pyStrip

/-- The `get_files` loading pipeline for one input: read (NaN-filling
short lines, erroring on over-long ones), filter by `FACILITY_TYPE`,
coerce to strings, strip whitespace — in that order. -/
def load_table (raws : List RawRow) : Except String Table :=
  (read_csv raws).map fun t =>
    (facility_filter t).map fun r => strip_row (astype_str r)

/-- A parsed line whose `CLIA` field (a comparison-key column) is
missing, with an admissible `FACILITY_TYPE`. -/
def raw_missing_key : RawRow :=
  [none, some "Hospital", some "Compliance", some "LabX", some "9 Main",
   some "Nome", some "AK", some "99762", some "560"]

/-- C7 counterexample: a row with no value for the key column `CLIA` is
not a load-time error — `load_table` succeeds and carries the row
through with the NaN cell stringified to "nan". -/
theorem load_missing_key_counterexample :
    load_table [raw_missing_key] =
      Except.ok [["nan", "Hospital", "Compliance", "LabX", "9 Main",
        "Nome", "AK", "99762", "560"]] := rfl

/-- C7 amended: loading never fails on rows with missing field values —
only a line with more fields than columns aborts the load; every row
whose `FACILITY_TYPE` passes the allow-list is carried through
(NaN-filled, stringified, stripped), missing key values included. -/
theorem load_missing_key_carried (raws : List RawRow)
    (h : ∀ r ∈ raws, r.length ≤ 9) :
    ∃ t, load_table raws = Except.ok t ∧
      ∀ r ∈ raws, facility_admissible (pad_row r) = true →
        strip_row (astype_str (pad_row r)) ∈ t := by
  have hc : (raws.all fun r => r.length ≤ 9) = true :=
    List.all_eq_true.mpr fun r hr => by
      simpa using h r hr
  refine ⟨(facility_filter (raws.map pad_row)).map
    fun r => strip_row (astype_str r), ?_, ?_⟩
  · unfold load_table read_csv
    rw [hc]
    rfl
  · intro r hr hadm
    exact List.mem_map_of_mem _
      (List.mem_filter.mpr ⟨List.mem_map_of_mem pad_row hr, hadm⟩)

/-- C7 amended witness: the general statement applied to the concrete
row with a missing `CLIA` value. -/
theorem load_missing_key_carried_witness :
    ∃ t, load_table [raw_missing_key] = Except.ok t ∧
      ∀ r ∈ [raw_missing_key], facility_admissible (pad_row r) = true →
        strip_row (astype_str (pad_row r)) ∈ t :=
  load_missing_key_carried [raw_missing_key] (by decide)

/-- Every entry of the `FACILITY_TYPE` keep list is already
whitespace-free. -/
theorem keep_list_stripped :
    ∀ w ∈ facility_type_keep_list, pyStrip w = w := by decide

/-- C10: the `FACILITY_TYPE` allow-list filter runs on the raw values,
before the whitespace-stripping step of `get_files`: a row whose
`FACILITY_TYPE` value is not itself in the keep list is dropped at load
time even when its stripped value is admissible. -/
theorem filter_before_strip (r : RawRow) (v : String)
    (hlen : r.length ≤ 9)
    (hv : r.get? 1 = some (some v))
    (hstrip : pyStrip v ∈ facility_type_keep_list)
    (hpad : v ≠ pyStrip v) :
    load_table [r] = Except.ok [] := by
  have h2 : 1 < r.length := by
    obtain ⟨hlt, -⟩ := List.get?_eq_some.mp hv
    exact hlt
  have hpadget : (pad_row r).get? 1 = some (some v) := by
    rw [pad_row, List.get?_append h2, hv]
  have hvkeep : facility_type_keep_list.contains v = false := by
    rcases hck : facility_type_keep_list.contains v with _ | _
    · rfl
    · exfalso
      have hmem : v ∈ facility_type_keep_list := by
        have := hck
        simp only [List.contains, List.elem_iff] at this
        exact this
      exact hpad (keep_list_stripped v hmem).symm
  have hadm : facility_admissible (pad_row r) = false := by
    rw [facility_admissible, hpadget]
    exact hvkeep
  have hc : (([r] : List RawRow).all fun x => x.length ≤ 9) = true := by
    simpa using hlen
  unfold load_table read_csv
  rw [hc]
  show Except.ok ((facility_filter [pad_row r]).map
    fun x => strip_row (astype_str x)) = Except.ok []
  rw [facility_filter]
  rw [List.filter_cons, hadm]
  rfl

/-- C10 witness: the value " Hospital" (whitespace around an admissible
facility type) causes the row to be dropped at load time. -/
theorem filter_before_strip_witness :
    load_table [[some "10", some " Hospital", some "Compliance",
      some "LabY", some "8 Main", some "Sitka", some "AK", some "99835",
      some "561"]] = Except.ok [] :=
  filter_before_strip _ " Hospital" (by decide) (by decide) (by decide)
    (by decide)

/-- Row `row1` with trailing whitespace padded onto its `CLIA` value. -/
def row1pad : Row :=
  ["1 ", "Hospital", "Compliance", "LabA", "1 Main", "Anchorage", "AK",
   "99501", "555"]

/-- C5 counterexample: `df_diff` compares raw values and performs no
trimming — padding one field of the incoming table with trailing
whitespace moves the row from the unchanged bucket to the added bucket. -/
theorem df_diff_no_trim_counterexample :
    unchanged_clias_df [row1] [row1] = [row1] ∧
    unchanged_clias_df [row1] [row1pad] = [] ∧
    new_clias_df [row1] [row1pad] = [row1pad] ∧
    unchanged_clias_df [row1] [row1pad] ≠ unchanged_clias_df [row1] [row1] := by
  refine ⟨?_, ?_, ?_, ?_⟩ <;> decide

/-- Dropping a satisfied prefix block before a list. -/
theorem dropWhile_all_append {α : Type} (p : α → Bool) (l1 l2 : List α)
    (h : ∀ c ∈ l1, p c = true) :
    (l1 ++ l2).dropWhile p = l2.dropWhile p := by
  induction l1 with
  | nil => rfl
  | cons c t ih =>
    rw [List.cons_append, List.dropWhile_cons, h c (List.mem_cons_self c t)]
    exact ih fun a ha => h a (List.mem_cons_of_mem c ha)

/-- A list all of whose elements satisfy `p` drops to `[]`. -/
theorem dropWhile_all_nil {α : Type} (p : α → Bool) (l : List α)
    (h : ∀ c ∈ l, p c = true) : l.dropWhile p = [] := by
  have := dropWhile_all_append p l [] h
  simpa using this

/-- Python `strip` ignores surrounding whitespace: stripping a character
list padded with whitespace blocks on both sides equals stripping the
original list. -/
theorem stripChars_pad (w1 w2 l : List Char)
    (h1 : ∀ c ∈ w1, c.isWhitespace = true)
    (h2 : ∀ c ∈ w2, c.isWhitespace = true) :
    stripChars (w1 ++ l ++ w2) = stripChars l := by
  unfold stripChars
  rw [List.append_assoc, dropWhile_all_append _ w1 _ h1]
  rcases hd : l.dropWhile Char.isWhitespace with _ | ⟨x, xs⟩
  · rw [List.dropWhile_append, hd]
    have hw2 : w2.dropWhile Char.isWhitespace = [] := dropWhile_all_nil _ w2 h2
    simp [hw2]
  · rw [List.dropWhile_append, hd]
    simp only [List.isEmpty_cons, if_neg Bool.false_ne_true]
    rw [List.reverse_append, dropWhile_all_append _ w2.reverse _
      fun c hc => h2 c (List.mem_reverse.mp hc)]

/-- A string padded with (possibly empty) leading and trailing
whitespace around a core string. -/
def PadOf (v v0 : String) : Prop :=
  ∃ w1 w2 : List Char,
    (∀ c ∈ w1, c.isWhitespace = true) ∧ (∀ c ∈ w2, c.isWhitespace = true) ∧
    v.data = w1 ++ v0.data ++ w2

/-- Every string is a (trivially) padded version of itself. -/
theorem PadOf_refl (v : String) : PadOf v v :=
  ⟨[], [], fun c hc => absurd hc (List.not_mem_nil c),
    fun c hc => absurd hc (List.not_mem_nil c), by simp⟩

/-- Stripping is invariant under whitespace padding. -/
theorem pyStrip_pad {v v0 : String} (h : PadOf v v0) :
    pyStrip v = pyStrip v0 := by
  obtain ⟨w1, w2, h1, h2, hdata⟩ := h
  unfold pyStrip
  rw [hdata, stripChars_pad w1 w2 v0.data h1 h2]

/-- Row-wise padding: each field of `r` pads the matching field of `r0`. -/
def RowPadOf (r r0 : Row) : Prop :=
  List.Forall₂ PadOf r r0

/-- Table-wise padding: each row of `t` pads the matching row of `t0`. -/
def TablePadOf (t t0 : Table) : Prop :=
  List.Forall₂ RowPadOf t t0

/-- Stripping a padded row gives the stripped original row. -/
theorem strip_row_pad {r r0 : Row} (h : RowPadOf r r0) :
    strip_row r = strip_row r0 := by
  induction h with
  | nil => rfl
  | cons hp _ ih =>
    unfold strip_row at ih ⊢
    rw [List.map_cons, List.map_cons, pyStrip_pad hp, ih]

/-- The stripped table of `get_files` does not see padding. -/
theorem strip_table_pad {t t0 : Table} (h : TablePadOf t t0) :
    t.map strip_row = t0.map strip_row := by
  induction h with
  | nil => rfl
  | cons hp _ ih =>
    rw [List.map_cons, List.map_cons, strip_row_pad hp, ih]

/-- C5 amended: `df_diff` itself performs no normalization (see the
counterexample), but the whitespace-stripping done to both tables at
load time by `get_files` makes the classification invariant under
whitespace padding of any field of either input: reconciling the
stripped tables of padded inputs equals reconciling the stripped tables
of the originals, for every bucket selector. -/
theorem reconcile_after_strip_pad_invariant (A A0 B B0 : Table)
    (hA : TablePadOf A A0) (hB : TablePadOf B B0) (w : Option Merge) :
    df_diff (A.map strip_row) (B.map strip_row) w =
      df_diff (A0.map strip_row) (B0.map strip_row) w := by
  rw [strip_table_pad hA, strip_table_pad hB]

/-- C5 amended witness: padding the `CLIA` value does not change the
classification once both tables pass through the stripping of the loader. -/
theorem reconcile_after_strip_pad_invariant_witness :
    df_diff (List.map strip_row [row1pad]) (List.map strip_row [row1])
        (some Merge.both) =
      df_diff (List.map strip_row [row1]) (List.map strip_row [row1])
        (some Merge.both) :=
  reconcile_after_strip_pad_invariant [row1pad] [row1] [row1] [row1]
    (List.Forall₂.cons
      (List.Forall₂.cons
        ⟨[], [' '], fun c hc => absurd hc (List.not_mem_nil c),
          fun c hc => by
            simp only [List.mem_singleton] at hc
            subst hc
            decide,
          by decide⟩
        (List.forall₂_same.mpr fun v _ => PadOf_refl v))
      (List.Forall₂.nil))
    (List.forall₂_same.mpr fun r _ => List.forall₂_same.mpr
      fun v _ => PadOf_refl v)
    (some Merge.both)

/-- A DataFrame with its column schema: rows hold one value per column,
positionally. -/
structure DataFrame : Type where
  cols : List String
  rows : List (List String)

/-- Cell lookup by column name: the position of the column in the schema,
then the value at that position. -/
def rget (cols : List String) (r : List String) (c : String) : Option String :=
  (cols.indexOf? c).bind fun i => r.get? i

/-- Join predicate of `pandas.merge(..., on=key)`: two rows match iff
every key column holds the same value in both (looked up through each
own schema of each frame). -/
def rowsMatch (key cols1 cols2 : List String) (r1 r2 : List String) : Bool :=
  key.all fun c => rget cols1 r1 c == rget cols2 r2 c

/-- A row of an outer-merge result, tagged with its provenance. -/
inductive MergedRow : Type
  | left (r : List String)
  | right (r : List String)
  | matched (r1 r2 : List String)
deriving DecidableEq, Repr

/-- Embedding of `pandas.merge(df1, df2, on=key, how="outer", indicator=True)`
(pandas 1.x, `sort=False`): pandas resolves every key column against both
schemas first and raises `KeyError` if one is absent — before any join
work; only with the key a subset of both column lists does it compute
the outer join.  The join result is grouped by key in first-appearance
order: for each left key group in order, its rows (tagged `left`) when
the key has no right match, else all of its pairings with the matching
right rows (tagged `matched`); then each right-only key group in order,
its rows tagged `right`. -/
def pdMerge (key : List String) (df1 df2 : DataFrame) :
    Except String (List MergedRow) :=
  if (key.all fun c => df1.cols.contains c) &&
      (key.all fun c => df2.cols.contains c) then
    Except.ok
      (((distinctBy (rowsMatch key df1.cols df1.cols) df1.rows).flatMap
        fun r1 =>
        if (df2.rows.filter fun r2 =>
            rowsMatch key df1.cols df2.cols r1 r2).isEmpty then
          (df1.rows.filter fun l1 =>
            rowsMatch key df1.cols df1.cols r1 l1).map
              fun l1 => MergedRow.left l1
        else
          (df1.rows.filter fun l1 =>
            rowsMatch key df1.cols df1.cols r1 l1).flatMap fun l1 =>
              (df2.rows.filter fun r2 =>
                rowsMatch key df1.cols df2.cols l1 r2).map
                  fun r2 => MergedRow.matched l1 r2) ++
      ((distinctBy (rowsMatch key df2.cols df2.cols) df2.rows).flatMap
        fun g2 =>
        if (df1.rows.any fun l1 =>
            rowsMatch key df1.cols df2.cols l1 g2) then
          []
        else
          (df2.rows.filter fun y =>
            rowsMatch key df2.cols df2.cols g2 y).map
              fun y => MergedRow.right y))
  else Except.error "KeyError"

/-- C6: the merge underlying `df_diff` succeeds exactly when the key
column list is a subset of the column lists of both frames, and a missing key
column yields the key error before any join result is produced. -/
theorem merge_key_check (key : List String) (df1 df2 : DataFrame) :
    ((∃ m, pdMerge key df1 df2 = Except.ok m) ↔
      ((∀ c ∈ key, c ∈ df1.cols) ∧ (∀ c ∈ key, c ∈ df2.cols))) ∧
    (¬((∀ c ∈ key, c ∈ df1.cols) ∧ (∀ c ∈ key, c ∈ df2.cols)) →
      pdMerge key df1 df2 = Except.error "KeyError") := by
  have hiff : ((key.all fun c => df1.cols.contains c) &&
      (key.all fun c => df2.cols.contains c)) = true ↔
      ((∀ c ∈ key, c ∈ df1.cols) ∧ (∀ c ∈ key, c ∈ df2.cols)) := by
    rw [Bool.and_eq_true, List.all_eq_true, List.all_eq_true]
    simp only [List.contains, List.elem_iff]
  unfold pdMerge
  by_cases h : ((key.all fun c => df1.cols.contains c) &&
      (key.all fun c => df2.cols.contains c)) = true
  · rw [if_pos h]
    exact ⟨⟨fun _ => hiff.mp h, fun _ => ⟨_, rfl⟩⟩,
      fun hn => absurd (hiff.mp h) hn⟩
  · rw [if_neg h]
    exact ⟨⟨fun ⟨m, hm⟩ => absurd hm (by simp),
      fun hs => absurd (hiff.mpr hs) h⟩, fun _ => rfl⟩

/-- C6 witness: with the `CLIA` column missing from the schema of the
right frame, the merge reports the key error; with both schemas complete it
succeeds. -/
theorem merge_key_check_witness :
    pdMerge COLUMNS ⟨COLUMNS, [row1]⟩ ⟨["FACILITY_TYPE"], [["Hospital"]]⟩ =
      Except.error "KeyError" :=
  (merge_key_check COLUMNS ⟨COLUMNS, [row1]⟩
    ⟨["FACILITY_TYPE"], [["Hospital"]]⟩).2 (by decide)

/-- A list of length nine is a nine-element literal. -/
theorem length_nine_eq (r : List String) (h : r.length = 9) :
    ∃ b1 b2 b3 b4 b5 b6 b7 b8 b9,
      r = [b1, b2, b3, b4, b5, b6, b7, b8, b9] := by
  rcases r with _ | ⟨b1, r⟩; · simp at h
  rcases r with _ | ⟨b2, r⟩; · simp at h
  rcases r with _ | ⟨b3, r⟩; · simp at h
  rcases r with _ | ⟨b4, r⟩; · simp at h
  rcases r with _ | ⟨b5, r⟩; · simp at h
  rcases r with _ | ⟨b6, r⟩; · simp at h
  rcases r with _ | ⟨b7, r⟩; · simp at h
  rcases r with _ | ⟨b8, r⟩; · simp at h
  rcases r with _ | ⟨b9, r⟩; · simp at h
  rcases r with _ | ⟨b10, r⟩
  · exact ⟨b1, b2, b3, b4, b5, b6, b7, b8, b9, rfl⟩
  · simp at h

/-- On full nine-column rows, the join predicate of the merge on all
nine columns is whole-row equality: the matching of the row-level model is
exactly `pandas.merge(on=self.columns)` matching. -/
theorem rowsMatch_iff (r1 r2 : List String) (h1 : r1.length = 9)
    (h2 : r2.length = 9) :
    rowsMatch COLUMNS COLUMNS COLUMNS r1 r2 = true ↔ r1 = r2 := by
  obtain ⟨a1, a2, a3, a4, a5, a6, a7, a8, a9, rfl⟩ := length_nine_eq r1 h1
  obtain ⟨b1, b2, b3, b4, b5, b6, b7, b8, b9, rfl⟩ := length_nine_eq r2 h2
  rw [show rowsMatch COLUMNS COLUMNS COLUMNS
      [a1, a2, a3, a4, a5, a6, a7, a8, a9]
      [b1, b2, b3, b4, b5, b6, b7, b8, b9] =
    ((a1 == b1) && ((a2 == b2) && ((a3 == b3) && ((a4 == b4) &&
      ((a5 == b5) && ((a6 == b6) && ((a7 == b7) && ((a8 == b8) &&
        ((a9 == b9) && true))))))))) from rfl]
  simp only [Bool.and_eq_true, beq_iff_eq, and_true, List.cons.injEq]

/-- Forgetting the matched partner and tagging with the `_merge` value
turns a schema-level merged row into a row-level one. -/
def mergedTag : MergedRow → Row × Merge
  | MergedRow.left r => (r, Merge.left_only)
  | MergedRow.right r => (r, Merge.right_only)
  | MergedRow.matched r1 _ => (r1, Merge.both)

/-- Mapping `any` only looks at its predicate on members of the list. -/
theorem any_congr_mem {α : Type} (l : List α) (f g : α → Bool)
    (h : ∀ a ∈ l, f a = g a) : l.any f = l.any g := by
  induction l with
  | nil => rfl
  | cons x t ih =>
    rw [List.any_cons, List.any_cons, h x (List.mem_cons_self x t),
      ih fun a ha => h a (List.mem_cons_of_mem x ha)]

/-- First-appearance dedup only looks at its equivalence test on pairs
drawn from the `seen` accumulator and the list. -/
theorem distinctByAux_congr {α : Type} (eqv1 eqv2 : α → α → Bool)
    (seen l : List α)
    (h : ∀ x y, x ∈ seen ++ l → y ∈ seen ++ l → eqv1 x y = eqv2 x y) :
    distinctByAux eqv1 seen l = distinctByAux eqv2 seen l := by
  induction l generalizing seen with
  | nil => rfl
  | cons y t ih =>
    have hmy : y ∈ seen ++ y :: t :=
      List.mem_append.mpr (Or.inr (List.mem_cons_self y t))
    have hw : ∀ x : α, x ∈ seen ++ t → x ∈ seen ++ y :: t := fun x hx => by
      rcases List.mem_append.mp hx with hx1 | hx1
      · exact List.mem_append.mpr (Or.inl hx1)
      · exact List.mem_append.mpr (Or.inr (List.mem_cons_of_mem y hx1))
    have hw2 : ∀ x : α, x ∈ (y :: seen) ++ t → x ∈ seen ++ y :: t :=
      fun x hx => by
      rcases (by simpa using hx : x = y ∨ x ∈ seen ∨ x ∈ t) with
        rfl | hx1 | hx1
      · exact hmy
      · exact List.mem_append.mpr (Or.inl hx1)
      · exact hw x (List.mem_append.mpr (Or.inr hx1))
    have hcond : (seen.any fun s => eqv1 s y) = seen.any fun s => eqv2 s y :=
      any_congr_mem _ _ _ fun s hs =>
        h s y (List.mem_append.mpr (Or.inl hs)) hmy
    rw [distinctByAux, distinctByAux, hcond]
    by_cases hb : (seen.any fun s => eqv2 s y) = true
    · rw [if_pos hb, if_pos hb]
      exact ih seen fun x z hx hz => h x z (hw x hx) (hw z hz)
    · rw [if_neg hb, if_neg hb]
      congr 1
      exact ih (y :: seen) fun x z hx hz => h x z (hw2 x hx) (hw2 z hz)

/-- Distinct-representative extraction only looks at its equivalence
test on pairs from the list. -/
theorem distinctBy_congr {α : Type} (eqv1 eqv2 : α → α → Bool) (l : List α)
    (h : ∀ x y, x ∈ l → y ∈ l → eqv1 x y = eqv2 x y) :
    distinctBy eqv1 l = distinctBy eqv2 l :=
  distinctByAux_congr eqv1 eqv2 [] l fun x y hx hy =>
    h x y (by simpa using hx) (by simpa using hy)

/-- On nine-column rows the join predicate is the boolean row equality. -/
theorem rowsMatch_beq (x y : List String) (hx : x.length = 9)
    (hy : y.length = 9) :
    rowsMatch COLUMNS COLUMNS COLUMNS x y = (x == y) := by
  by_cases he : x = y
  · subst he
    rw [(rowsMatch_iff x x hx hx).mpr rfl]
    simp
  · rw [beq_false_of_ne he]
    rcases hm : rowsMatch COLUMNS COLUMNS COLUMNS x y with _ | _
    · rfl
    · exact absurd ((rowsMatch_iff x y hx hy).mp hm) he

/-- Filtering a table of nine-column rows by join-match against a fixed
nine-column row keeps exactly the copies of that row. -/
theorem filter_rowsMatch_eq (r : List String) (hr : r.length = 9)
    (X : List (List String)) (hX : ∀ a ∈ X, a.length = 9) :
    (X.filter fun a => rowsMatch COLUMNS COLUMNS COLUMNS r a) =
      List.replicate (X.count r) r := by
  have hcg : ∀ a ∈ X,
      (rowsMatch COLUMNS COLUMNS COLUMNS r a) = (a == r) := by
    intro a ha
    by_cases he : a = r
    · subst he
      rw [(rowsMatch_iff a a hr hr).mpr rfl]
      simp
    · rw [beq_false_of_ne he]
      rcases hm : rowsMatch COLUMNS COLUMNS COLUMNS r a with _ | _
      · rfl
      · exact absurd ((rowsMatch_iff r a hr (hX a ha)).mp hm).symm he
  rw [List.filter_congr hcg, List.filter_beq]

/-- Flattening a constant key group: every element of the replicate
produces the same replicate block. -/
theorem flatMap_replicate_eq {β : Type} (m k : Nat) (x : Row) (y : β)
    (f : Row → List β) (h : f x = List.replicate k y) :
    (List.replicate m x).flatMap f = List.replicate (m * k) y := by
  induction m with
  | zero =>
    rw [Nat.zero_mul]
    rfl
  | succ n ih =>
    rw [List.replicate_succ, List.flatMap_cons, h, ih, ← List.replicate_add]
    congr 1
    rw [Nat.succ_mul, Nat.add_comm]

/-- The row-level outer merge refines the schema-level `pandas.merge` on
the configuration of the program: with both frames carrying exactly the
nine columns and the key being the full column list, the schema-level
merge succeeds and, after tagging, equals `outerMerge` — key groups,
multiplicities and grouped emission order included. -/
theorem pdMerge_spec (R1 R2 : List (List String))
    (h1 : ∀ r ∈ R1, r.length = 9) (h2 : ∀ r ∈ R2, r.length = 9) :
    ∃ m, pdMerge COLUMNS ⟨COLUMNS, R1⟩ ⟨COLUMNS, R2⟩ = Except.ok m ∧
      m.map mergedTag = outerMerge R1 R2 := by
  refine ⟨_, rfl, ?_⟩
  simp only [show (DataFrame.mk COLUMNS R1).rows = R1 from rfl,
    show (DataFrame.mk COLUMNS R2).rows = R2 from rfl,
    show (DataFrame.mk COLUMNS R1).cols = COLUMNS from rfl,
    show (DataFrame.mk COLUMNS R2).cols = COLUMNS from rfl]
  rw [outerMerge, List.map_append]
  congr 1
  · rw [List.map_flatMap,
      show distinctBy (rowsMatch COLUMNS COLUMNS COLUMNS) R1 = keyOrder R1
        from distinctBy_congr _ _ R1 fun x y hx hy =>
          rowsMatch_beq x y (h1 x hx) (h1 y hy)]
    refine flatMap_congr_mem _ _ _ fun r1 hr1 => ?_
    have hr1l : r1.length = 9 := h1 r1 (mem_keyOrder.mp hr1)
    rw [filter_rowsMatch_eq r1 hr1l R2 h2, filter_rowsMatch_eq r1 hr1l R1 h1]
    by_cases hc : R2.count r1 = 0
    · rw [if_pos hc, hc,
        if_pos (show (List.replicate 0 r1).isEmpty = true from rfl),
        List.map_map, List.map_replicate]
      rfl
    · have hemp : (List.replicate (R2.count r1) r1).isEmpty = false := by
        rcases hk : R2.count r1 with _ | n
        · exact absurd hk hc
        · rw [List.replicate_succ]
          rfl
      rw [hemp, if_neg Bool.false_ne_true, if_neg hc, List.map_flatMap]
      refine flatMap_replicate_eq _ _ _ _ _ ?_
      rw [filter_rowsMatch_eq r1 hr1l R2 h2, List.map_map, List.map_replicate]
      rfl
  · rw [List.map_flatMap,
      show distinctBy (rowsMatch COLUMNS COLUMNS COLUMNS) R2 = keyOrder R2
        from distinctBy_congr _ _ R2 fun x y hx hy =>
          rowsMatch_beq x y (h2 x hx) (h2 y hy)]
    refine flatMap_congr_mem _ _ _ fun g2 hg2 => ?_
    have hg2l : g2.length = 9 := h2 g2 (mem_keyOrder.mp hg2)
    by_cases hm : g2 ∈ R1
    · have hany : (R1.any fun l1 =>
          rowsMatch COLUMNS COLUMNS COLUMNS l1 g2) = true :=
        List.any_eq_true.mpr ⟨g2, hm, (rowsMatch_iff g2 g2 hg2l hg2l).mpr rfl⟩
      rw [hany, if_pos rfl, if_neg fun hc => (List.count_eq_zero.mp hc) hm]
      rfl
    · have hany : (R1.any fun l1 =>
          rowsMatch COLUMNS COLUMNS COLUMNS l1 g2) = false := by
        rcases ha : R1.any fun l1 =>
            rowsMatch COLUMNS COLUMNS COLUMNS l1 g2 with _ | _
        · rfl
        · obtain ⟨l1, hl1, hmm⟩ := List.any_eq_true.mp ha
          exact absurd
            (((rowsMatch_iff l1 g2 (h1 l1 hl1) hg2l).mp hmm) ▸ hl1) hm
      rw [hany, if_neg Bool.false_ne_true,
        if_pos (List.count_eq_zero.mpr hm),
        filter_rowsMatch_eq g2 hg2l R2 h2, List.map_map, List.map_replicate]
      rfl

end Cdc
